import Mathlib

/-!
# Verification of the block-level document mutation engine

A shallow embedding of the block operations of the `tiptap-rich-editor`
repository (`src/utils/blockOperations.js`, `src/utils/blockTypes.js`,
`src/utils/slashCommand.js`) together with proofs about them.

The document model follows the data model of the specification (§3): a
document is a list of top-level blocks, each block carries a type name, an
open attribute map and inline text runs (each run carrying a set of
formatting marks).  A leaf text-bearing block occupies
`nodeSize = contentSize + 2` position units.  Positions are integers into
the linear address space; the block occupying `[pos, pos + nodeSize)` is
located by `pos`.

The command functions (`validateDropPosition`, `moveBlock`,
`duplicateBlockAt`, `deleteBlockAt`, `resetBlockFormattingAt`,
`setBlockColorAt`, `isConversionValid`) are translated directly from the
JavaScript source.  The editor-framework primitives they call
(`nodeAt`, `deleteRange`, `insertContentAt`, `setNodeMarkup`,
`unsetAllMarks` over a text selection) are not part of the repository;
those are modelled from the specification's position model (§3, §4.1).
-/

/-- A JavaScript attribute value: a string, an integer, or `null`. -/
inductive AttrValue where
  | str (s : String)
  | int (n : Int)
  | null
deriving DecidableEq, Repr

/-- An open attribute map (JS object), e.g. heading `level`,
`backgroundColor`.  Keyed association list; lookup takes the first hit. -/
abbrev Attrs := List (String × AttrValue)

/-- First-match lookup in an attribute map (JS property read; `none`
models `undefined`). -/
def attrLookup (a : Attrs) (k : String) : Option AttrValue :=
  match a with
  | [] => none
  | (k', v) :: rest => if k' = k then some v else attrLookup rest k

/-- Override the entries with key `k` by the value `v`, keeping the other
entries and the order. -/
def updateAttr (a : Attrs) (k : String) (v : AttrValue) : Attrs :=
  match a with
  | [] => []
  | (k', v') :: rest =>
      if k' = k then (k, v) :: updateAttr rest k v
      else (k', v') :: updateAttr rest k v

/-- JS object spread `{...a, k: v}`: every key of `a` is kept in order,
`k` is overridden (or appended when absent). -/
def setAttr (a : Attrs) (k : String) (v : AttrValue) : Attrs :=
  if (a.map Prod.fst).contains k then updateAttr a k v
  else a ++ [(k, v)]

/-- An inline text run: a text string carrying a set of formatting marks
(bold, italic, …).  Spec §3: content is inline text runs, each run
carrying a set of formatting marks. -/
structure TextRun where
  text : String
  marks : List String
deriving DecidableEq, Repr

/-- A block node: type name, open attribute map, inline content.
Spec §3. -/
structure Block where
  typeName : String
  attrs : Attrs
  runs : List TextRun
deriving DecidableEq, Repr

/-- Total length in position units of a list of text runs. -/
def runsLen (rs : List TextRun) : Int :=
  match rs with
  | [] => 0
  | r :: rest => (r.text.length : Int) + runsLen rest

/-- Spec §3: `nodeSize = contentSize + boundaryWidth`, and leaf
text-bearing blocks use boundary width 2. -/
def Block.nodeSize (b : Block) : Int :=
  2 + runsLen b.runs

/-- A document: the ordered top-level blocks under the implicit root. -/
abbrev Doc := List Block

/-- The field `doc.content.size`: the total addressable width in position units
(spec §3), the sum of the top-level node sizes. -/
def docContentSize (doc : Doc) : Int :=
  match doc with
  | [] => 0
  | b :: bs => b.nodeSize + docContentSize bs

/-- Modelled from the spec: the position-model contract
`nodeAt(doc, pos) -> Block | null` (§4.1) — resolve the block located by
`pos`, i.e. the block occupying `[pos, pos + nodeSize)` with `pos` its
start position; positions that are not block starts resolve to no block. -/
def nodeAt (doc : Doc) (pos : Int) : Option Block :=
  match doc with
  | [] => none
  | b :: bs =>
      if pos = 0 then some b
      else if pos < b.nodeSize then none
      else nodeAt bs (pos - b.nodeSize)

/-- Modelled from the spec: the transaction primitive
`deleteRange({from, to})` used by the commands — atomically remove the
span `[f, t)`; a top-level block is removed exactly when its whole span
lies inside the deleted range (the commands only ever delete whole-block
spans `[pos, pos + nodeSize)`, spec §4.3). -/
def deleteRange (doc : Doc) (f t : Int) : Doc :=
  match doc with
  | [] => []
  | b :: bs =>
      if f ≤ 0 ∧ b.nodeSize ≤ t then deleteRange bs (f - b.nodeSize) (t - b.nodeSize)
      else b :: deleteRange bs (f - b.nodeSize) (t - b.nodeSize)

/-- Modelled from the spec: the transaction primitive
`insertContentAt(pos, node)` used by the commands — insert a full
structural copy of `n` at position `pos` (the commands only ever insert
at block boundaries, spec §4.3). -/
def insertContentAt (doc : Doc) (pos : Int) (n : Block) : Doc :=
  match doc with
  | [] => [n]
  | b :: bs =>
      if pos ≤ 0 then n :: b :: bs
      else b :: insertContentAt bs (pos - b.nodeSize) n

/-- Modelled from the spec: the transaction primitive
`tr.setNodeMarkup(pos, undefined, attrs)` — replace the attribute map of
the block located by `pos`, keeping its type and content (spec §4.3,
setBlockColor: "Update the target block's `backgroundColor` attribute"). -/
def setNodeMarkup (doc : Doc) (pos : Int) (a : Attrs) : Doc :=
  match doc with
  | [] => []
  | b :: bs =>
      if pos = 0 then { b with attrs := a } :: bs
      else if pos < b.nodeSize then b :: bs
      else b :: setNodeMarkup bs (pos - b.nodeSize) a

/-- Result record of `validateDropPosition`
(`{isValid: bool, reason: string|null}`). -/
structure DropValidation where
  isValid : Bool
  reason : Option String
deriving DecidableEq, Repr

/-- Function `validateDropPosition` from `src/utils/blockOperations.js` lines
25–64.  `sourcePos`/`targetPos` are `Option Int`: `none` models a JS
value that is not a number (the `typeof` check). -/
def validateDropPosition (sourcePos targetPos : Option Int)
    (nodeSize docSize : Int) : DropValidation :=
  match sourcePos, targetPos with
  | some s, some t =>
      -- Check if target is within document bounds
      if t < 0 ∨ docSize < t then
        ⟨false, some "Target position is outside document bounds"⟩
      else
        -- Check if dropping onto itself (same position or within the node)
        let sourceEnd := s + nodeSize
        if s ≤ t ∧ t ≤ sourceEnd then
          ⟨false, some "Cannot drop block onto itself"⟩
        -- Check if target position is immediately adjacent (no actual move)
        else if t = s ∨ t = sourceEnd then
          ⟨false, some "Block is already at this position"⟩
        else
          ⟨true, none⟩
  | _, _ => ⟨false, some "Invalid position values"⟩

/-- Result record of `moveBlock`: the returned boolean, the document
after the call, and the warnings surfaced to the user (`showWarning`). -/
structure MoveResult where
  success : Bool
  doc : Doc
  warnings : List String
deriving DecidableEq, Repr

/-- Function `moveBlock` from `src/utils/blockOperations.js` lines 78–137 (the
`try` body never throws in this model, so the `catch` branch is not
represented). -/
def moveBlock (doc : Doc) (sourcePos targetPos : Int) : MoveResult :=
  match nodeAt doc sourcePos with
  | none => ⟨false, doc, ["Could not find block to move"]⟩
  | some node =>
      let nodeSize := node.nodeSize
      let docSize := docContentSize doc
      let validation := validateDropPosition (some sourcePos) (some targetPos) nodeSize docSize
      if validation.isValid then
        -- If target is after source, adjust for the deleted content
        let adjustedTargetPos :=
          if sourcePos < targetPos then targetPos - nodeSize else targetPos
        ⟨true,
          insertContentAt (deleteRange doc sourcePos (sourcePos + nodeSize)) adjustedTargetPos node,
          []⟩
      else
        if validation.reason = some "Block is already at this position" then
          ⟨false, doc, []⟩
        else
          ⟨false, doc, [validation.reason.getD "Invalid drop position"]⟩

/-- Result record of `isConversionValid` (`{valid: bool, reason?: string}`). -/
structure ConversionResult where
  valid : Bool
  reason : Option String
deriving DecidableEq, Repr

/-- Function `isConversionValid` from `src/utils/blockTypes.js` lines 114–149. -/
def isConversionValid (sourceType targetType : String)
    (targetAttrs sourceAttrs : Attrs) : ConversionResult :=
  -- Same type conversion - check if it's actually a change
  if sourceType = targetType then
    if targetType = "heading" then
      if attrLookup targetAttrs "level" ≠ attrLookup sourceAttrs "level" then
        ⟨true, none⟩
      else
        ⟨true, some "Already this heading level"⟩
    else
      ⟨true, some "Already this type"⟩
  -- List items can only be converted within list context
  else if sourceType = "listItem" then
    ⟨false, some "List items cannot be converted directly. Convert the entire list instead."⟩
  -- Code blocks can be converted but may lose formatting
  else if sourceType = "codeBlock" ∧ targetType ≠ "paragraph" then
    ⟨true, none⟩
  -- Blockquotes with nested content
  else if sourceType = "blockquote" ∧ (targetType = "bulletList" ∨ targetType = "orderedList") then
    ⟨true, none⟩
  -- All other conversions are valid
  else
    ⟨true, none⟩

/-- Result record of a simple command: returned boolean and the document
after the call. -/
structure OpResult where
  success : Bool
  doc : Doc
deriving DecidableEq, Repr

/-- Strip the marks of one text run (`unsetAllMarks` on a fully selected
run). -/
def stripRun (r : TextRun) : TextRun :=
  ⟨r.text, []⟩

/-- Modelled from the spec: the mark-removal step of `unsetAllMarks` over
a text selection, on the runs of one block in block-content coordinates —
a run is stripped of its marks exactly when its whole span lies inside
the selected range `[f, t]` (the command always selects a whole inner
content range, spec §4.3 resetBlockFormatting). -/
def stripRuns (rs : List TextRun) (f t : Int) : List TextRun :=
  match rs with
  | [] => []
  | r :: rest =>
      let len : Int := r.text.length
      (if f ≤ 0 ∧ len ≤ t then stripRun r else r) :: stripRuns rest (f - len) (t - len)

/-- Modelled from the spec: `setTextSelection({from, to})` followed by
`unsetAllMarks()` — strip every inline formatting mark across the
document range `[f, t]`, leaving text and attributes untouched
(spec §4.3).  The first content position of a block at `s` is `s + 1`. -/
def unsetAllMarksRange (doc : Doc) (f t : Int) : Doc :=
  match doc with
  | [] => []
  | b :: bs =>
      { b with runs := stripRuns b.runs (f - 1) (t - 1) } ::
        unsetAllMarksRange bs (f - b.nodeSize) (t - b.nodeSize)

/-- The `resetBlockFormattingAt` command (`src/utils/blockOperations.js`
lines 474–478) composed with `resetBlockFormatting` (lines 373–404):
resolve the node at `pos`, compute the inner content range
`(pos + 1, pos + nodeSize - 1)`, succeed as a no-op when `from >= to`,
otherwise unset all marks across that range. -/
def resetBlockFormattingAt (doc : Doc) (pos : Int) : OpResult :=
  match nodeAt doc pos with
  | none => ⟨false, doc⟩
  | some node =>
      let f := pos + 1
      let t := pos + node.nodeSize - 1
      -- Only proceed if there's actual content to reset
      if t ≤ f then ⟨true, doc⟩
      else ⟨true, unsetAllMarksRange doc f t⟩

/-- The `duplicateBlockAt` command (`src/utils/blockOperations.js` lines
443–447) composed with `duplicateBlock` (lines 176–201): resolve the
node at `pos`, insert an identical copy at `pos + nodeSize`. -/
def duplicateBlockAt (doc : Doc) (pos : Int) : OpResult :=
  match nodeAt doc pos with
  | none => ⟨false, doc⟩
  | some node => ⟨true, insertContentAt doc (pos + node.nodeSize) node⟩

/-- Result record of `deleteBlockAt`: the returned boolean, the document
after the call, and the cursor-placement target the command computes
(`cursorPos` in the source; `none` when no cursor placement occurs). -/
structure DeleteResult where
  success : Bool
  doc : Doc
  cursorPos : Option Int
deriving DecidableEq, Repr

/-- The `deleteBlockAt` command (`src/utils/blockOperations.js` lines
464–468) composed with `deleteBlock` (lines 323–362): resolve the node
at `pos`, remove `[pos, pos + nodeSize)`; the cursor target is `pos - 1`
(end of the preceding block) when content precedes, `pos` when content
only follows, and none when the document becomes empty. -/
def deleteBlockAt (doc : Doc) (pos : Int) : DeleteResult :=
  match nodeAt doc pos with
  | none => ⟨false, doc, none⟩
  | some node =>
      let docSize := docContentSize doc
      let endPos := pos + node.nodeSize
      let cursorPos : Option Int :=
        if 0 < pos then some (pos - 1)
        else if endPos < docSize then some pos
        else none
      ⟨true, deleteRange doc pos endPos, cursorPos⟩

/-- The stored color value (`src/utils/slashCommand.js` line 410):
`const colorValue = color === 'transparent' ? null : color`. -/
def colorValueOf (color : String) : AttrValue :=
  if color = "transparent" then AttrValue.null else AttrValue.str color

/-- A block with its `backgroundColor` attribute set to the stored value
of `c` (the JS spread `{...node.attrs, backgroundColor: colorValue}`). -/
def recolorBlock (b : Block) (c : String) : Block :=
  { b with attrs := setAttr b.attrs "backgroundColor" (colorValueOf c) }

/-- The `setBlockColorAt` command (`src/utils/slashCommand.js` lines
405–421): resolve the node at `pos`; the sentinel `"transparent"` maps
to `null`, any other string is stored as-is; write the updated attribute
map with `setNodeMarkup`. -/
def setBlockColorAt (doc : Doc) (pos : Int) (color : String) : OpResult :=
  match nodeAt doc pos with
  | none => ⟨false, doc⟩
  | some node =>
      let colorValue := colorValueOf color
      ⟨true, setNodeMarkup doc pos (setAttr node.attrs "backgroundColor" colorValue)⟩

/-- The start position of the `i`-th top-level block: the sum of the
node sizes of the blocks before it (spec §3 position model). -/
def startPos (doc : Doc) (i : Nat) : Int :=
  match doc, i with
  | [], _ => 0
  | _ :: _, 0 => 0
  | b :: bs, i + 1 => b.nodeSize + startPos bs i

/-- The concatenated plain text of a block (`node.textContent`). -/
def blockText (b : Block) : String :=
  String.join (b.runs.map TextRun.text)

/-- Example paragraph block (`nodeSize = 4`), used for concrete
witnesses. -/
def exA : Block := ⟨"paragraph", [], [⟨"ab", ["bold"]⟩]⟩

/-- Example heading block (`nodeSize = 5`), used for concrete
witnesses. -/
def exB : Block := ⟨"heading", [("level", AttrValue.int 1)], [⟨"xyz", []⟩]⟩

/-- Example paragraph block (`nodeSize = 3`), used for concrete
witnesses. -/
def exC : Block := ⟨"paragraph", [], [⟨"q", ["em"]⟩]⟩

/-- Example document with three blocks starting at positions 0, 4 and 9;
`docContentSize exDoc = 12`. -/
def exDoc : Doc := [exA, exB, exC]

/-- An empty paragraph block (`nodeSize = 2`, no inner content). -/
def exEmpty : Block := ⟨"paragraph", [], []⟩

/-- A document holding only an empty paragraph. -/
def exEmptyDoc : Doc := [exEmpty]

/-! ## Basic facts about sizes and start positions -/

theorem runsLen_nonneg (rs : List TextRun) : 0 ≤ runsLen rs := by
  induction rs with
  | nil => simp [runsLen]
  | cons r rest ih => simp only [runsLen]; positivity

theorem nodeSize_ge_two (b : Block) : 2 ≤ b.nodeSize := by
  have := runsLen_nonneg b.runs
  simp only [Block.nodeSize]; omega

theorem docContentSize_nonneg (doc : Doc) : 0 ≤ docContentSize doc := by
  induction doc with
  | nil => simp [docContentSize]
  | cons b bs ih =>
      have := nodeSize_ge_two b
      simp only [docContentSize]; omega

theorem startPos_nonneg (doc : Doc) (i : Nat) : 0 ≤ startPos doc i := by
  induction doc generalizing i with
  | nil => simp [startPos]
  | cons b bs ih =>
      cases i with
      | zero => simp [startPos]
      | succ i =>
          have := nodeSize_ge_two b
          have := ih i
          simp only [startPos]; omega

theorem startPos_zero (doc : Doc) : startPos doc 0 = 0 := by
  cases doc <;> simp [startPos]

theorem startPos_length (doc : Doc) : startPos doc doc.length = docContentSize doc := by
  induction doc with
  | nil => simp [startPos, docContentSize]
  | cons b bs ih => simp [startPos, docContentSize, ih]

theorem startPos_le_docSize (doc : Doc) (i : Nat) : startPos doc i ≤ docContentSize doc := by
  induction doc generalizing i with
  | nil => simp [startPos, docContentSize]
  | cons b bs ih =>
      cases i with
      | zero =>
          have := nodeSize_ge_two b
          have := docContentSize_nonneg bs
          simp only [startPos, docContentSize]; omega
      | succ i =>
          have := ih i
          simp only [startPos, docContentSize]; omega

theorem startPos_succ (doc : Doc) (i : Nat) (hi : i < doc.length) :
    startPos doc (i + 1) = startPos doc i + (doc.get ⟨i, hi⟩).nodeSize := by
  induction doc generalizing i with
  | nil => simp at hi
  | cons b bs ih =>
      cases i with
      | zero => simp [startPos, startPos_zero]
      | succ i =>
          have hi' : i < bs.length := by simpa using hi
          have := ih i hi'
          simp only [startPos, List.get_cons_succ]
          omega

theorem startPos_add_size_le (doc : Doc) (i j : Nat) (hi : i < doc.length) (hij : i < j) :
    startPos doc i + (doc.get ⟨i, hi⟩).nodeSize ≤ startPos doc j := by
  induction doc generalizing i j with
  | nil => simp at hi
  | cons b bs ih =>
      cases i with
      | zero =>
          cases j with
          | zero => omega
          | succ j =>
              have := startPos_nonneg bs j
              have hb : (b :: bs).get ⟨0, hi⟩ = b := rfl
              rw [hb]
              simp only [startPos]
              omega
      | succ i =>
          cases j with
          | zero => omega
          | succ j =>
              have hi' : i < bs.length := by simpa using hi
              have := ih i j hi' (by omega)
              simp only [startPos, List.get_cons_succ]
              omega

theorem startPos_lt_startPos (doc : Doc) (i j : Nat) (hi : i < doc.length) (hij : i < j) :
    startPos doc i < startPos doc j := by
  have h1 := startPos_add_size_le doc i j hi hij
  have h2 := nodeSize_ge_two (doc.get ⟨i, hi⟩)
  omega

theorem startPos_pos (doc : Doc) (i : Nat) (hi : 0 < i) (hlen : 0 < doc.length) :
    0 < startPos doc i := by
  have := startPos_lt_startPos doc 0 i hlen hi
  rw [startPos_zero] at this
  exact this

theorem startPos_lt_docSize (doc : Doc) (i : Nat) (hi : i < doc.length) :
    startPos doc i < docContentSize doc := by
  have := startPos_lt_startPos doc i doc.length hi hi
  rwa [startPos_length] at this

/-! ## Resolving, deleting and inserting at block start positions -/

theorem nodeAt_startPos (doc : Doc) (i : Nat) (hi : i < doc.length) :
    nodeAt doc (startPos doc i) = some (doc.get ⟨i, hi⟩) := by
  induction doc generalizing i with
  | nil => simp at hi
  | cons b bs ih =>
      cases i with
      | zero => simp [startPos, nodeAt]
      | succ i =>
          have hi' : i < bs.length := by simpa using hi
          have h2 := nodeSize_ge_two b
          have h0 := startPos_nonneg bs i
          have hne : ¬(b.nodeSize + startPos bs i = 0) := by omega
          have hlt : ¬(b.nodeSize + startPos bs i < b.nodeSize) := by omega
          simp only [startPos, nodeAt, if_neg hne, if_neg hlt, List.get_cons_succ]
          have harg : b.nodeSize + startPos bs i - b.nodeSize = startPos bs i := by ring
          rw [harg]
          exact ih i hi'

theorem deleteRange_of_nonpos (doc : Doc) (f t : Int) (ht : t ≤ 0) :
    deleteRange doc f t = doc := by
  induction doc generalizing f t with
  | nil => simp [deleteRange]
  | cons b bs ih =>
      have h2 := nodeSize_ge_two b
      have hc : ¬(f ≤ 0 ∧ b.nodeSize ≤ t) := by omega
      simp only [deleteRange, if_neg hc]
      rw [ih _ _ (by omega)]

theorem deleteRange_startPos (doc : Doc) (i : Nat) (hi : i < doc.length) :
    deleteRange doc (startPos doc i) (startPos doc i + (doc.get ⟨i, hi⟩).nodeSize) =
      doc.eraseIdx i := by
  induction doc generalizing i with
  | nil => simp at hi
  | cons b bs ih =>
      cases i with
      | zero =>
          have hb : ((b :: bs).get ⟨0, hi⟩) = b := rfl
          rw [startPos_zero, hb]
          have hc : (0 : Int) ≤ 0 ∧ b.nodeSize ≤ 0 + b.nodeSize := by omega
          simp only [deleteRange, if_pos hc, List.eraseIdx]
          exact deleteRange_of_nonpos _ _ _ (by omega)
      | succ i =>
          have hi' : i < bs.length := by simpa using hi
          have h2 := nodeSize_ge_two b
          have h0 := startPos_nonneg bs i
          have hc : ¬(b.nodeSize + startPos bs i ≤ 0 ∧
              b.nodeSize ≤ b.nodeSize + startPos bs i + ((b :: bs).get ⟨i + 1, hi⟩).nodeSize) := by
            omega
          simp only [startPos, deleteRange, if_neg hc, List.eraseIdx, List.get_cons_succ]
          have harg1 : b.nodeSize + startPos bs i - b.nodeSize = startPos bs i := by ring
          have harg2 : b.nodeSize + startPos bs i + (bs.get ⟨i, hi'⟩).nodeSize - b.nodeSize =
              startPos bs i + (bs.get ⟨i, hi'⟩).nodeSize := by ring
          rw [harg1, harg2]
          rw [ih i hi']
          exact if_neg (fun h => absurd h.1 (by omega))

theorem insertContentAt_startPos (doc : Doc) (j : Nat) (n : Block) (hj : j ≤ doc.length) :
    insertContentAt doc (startPos doc j) n = doc.insertIdx j n := by
  induction doc generalizing j with
  | nil =>
      have : j = 0 := by simpa using hj
      subst this
      simp [insertContentAt, startPos, List.insertIdx]
  | cons b bs ih =>
      cases j with
      | zero => simp [insertContentAt, startPos, List.insertIdx]
      | succ j =>
          have hj' : j ≤ bs.length := by simpa using hj
          have h2 := nodeSize_ge_two b
          have h0 := startPos_nonneg bs j
          have hc : ¬(b.nodeSize + startPos bs j ≤ 0) := by omega
          simp only [startPos, insertContentAt, if_neg hc, List.insertIdx_succ_cons]
          have harg : b.nodeSize + startPos bs j - b.nodeSize = startPos bs j := by ring
          rw [harg, ih j hj']

theorem setNodeMarkup_startPos (doc : Doc) (i : Nat) (hi : i < doc.length) (a : Attrs) :
    setNodeMarkup doc (startPos doc i) a =
      doc.set i { doc.get ⟨i, hi⟩ with attrs := a } := by
  induction doc generalizing i with
  | nil => simp at hi
  | cons b bs ih =>
      cases i with
      | zero => simp [startPos, setNodeMarkup]
      | succ i =>
          have hi' : i < bs.length := by simpa using hi
          have h2 := nodeSize_ge_two b
          have h0 := startPos_nonneg bs i
          have hne : ¬(b.nodeSize + startPos bs i = 0) := by omega
          have hlt : ¬(b.nodeSize + startPos bs i < b.nodeSize) := by omega
          simp only [startPos, setNodeMarkup, if_neg hne, if_neg hlt, List.get_cons_succ,
            List.set_cons_succ]
          have harg : b.nodeSize + startPos bs i - b.nodeSize = startPos bs i := by ring
          rw [harg, ih i hi']

theorem startPos_eraseIdx_le (doc : Doc) (i j : Nat) (hj : j ≤ i) :
    startPos (doc.eraseIdx i) j = startPos doc j := by
  induction doc generalizing i j with
  | nil => simp [List.eraseIdx]
  | cons b bs ih =>
      cases i with
      | zero =>
          have : j = 0 := by omega
          subst this
          simp [List.eraseIdx, startPos_zero]
      | succ i =>
          cases j with
          | zero => simp [List.eraseIdx, startPos_zero]
          | succ j =>
              simp only [List.eraseIdx, startPos]
              rw [ih i j (by omega)]

theorem startPos_eraseIdx_gt (doc : Doc) (i k : Nat) (hi : i < doc.length) (hik : i ≤ k) :
    startPos (doc.eraseIdx i) k = startPos doc (k + 1) - (doc.get ⟨i, hi⟩).nodeSize := by
  induction doc generalizing i k with
  | nil => simp at hi
  | cons b bs ih =>
      cases i with
      | zero =>
          have hb : ((b :: bs).get ⟨0, hi⟩) = b := rfl
          simp only [List.eraseIdx, hb, startPos]
          ring
      | succ i =>
          have hi' : i < bs.length := by simpa using hi
          cases k with
          | zero => omega
          | succ k =>
              simp only [List.eraseIdx, startPos, List.get_cons_succ]
              rw [ih i k hi' (by omega)]
              ring

/-! ## Characterizing the drop-position validator -/

theorem validate_isValid_iff (s t ns ds : Int) (hns : 0 ≤ ns) :
    ((validateDropPosition (some s) (some t) ns ds).isValid = true) ↔
      (0 ≤ t ∧ t ≤ ds ∧ ¬(s ≤ t ∧ t ≤ s + ns)) := by
  simp only [validateDropPosition]
  split_ifs with h1 h2 h3 <;> simp <;> omega

theorem validate_eq_valid (s t ns ds : Int) (hns : 0 ≤ ns) (h0 : 0 ≤ t) (hds : t ≤ ds)
    (h : t < s ∨ s + ns < t) :
    validateDropPosition (some s) (some t) ns ds = ⟨true, none⟩ := by
  simp only [validateDropPosition]
  rw [if_neg (by omega), if_neg (by omega), if_neg (by omega)]

theorem validate_eq_self_drop (s t ns ds : Int) (h0 : 0 ≤ t) (hds : t ≤ ds)
    (h : s ≤ t ∧ t ≤ s + ns) :
    validateDropPosition (some s) (some t) ns ds =
      ⟨false, some "Cannot drop block onto itself"⟩ := by
  simp only [validateDropPosition]
  rw [if_neg (by omega), if_pos h]

/-! ## Mark stripping over ranges -/

theorem stripRuns_of_lt (rs : List TextRun) (f t : Int) (hf : runsLen rs < f) :
    stripRuns rs f t = rs := by
  induction rs generalizing f t with
  | nil => simp [stripRuns]
  | cons r rest ih =>
      have hlen : (0 : Int) ≤ (r.text.length : Int) := Int.natCast_nonneg _
      have hrest := runsLen_nonneg rest
      simp only [runsLen] at hf
      have hc : ¬(f ≤ 0 ∧ ((r.text.length : Int)) ≤ t) := by omega
      simp only [stripRuns, if_neg hc]
      rw [ih _ _ (by omega)]

theorem stripRuns_of_neg (rs : List TextRun) (f t : Int) (ht : t < 0) :
    stripRuns rs f t = rs := by
  induction rs generalizing f t with
  | nil => simp [stripRuns]
  | cons r rest ih =>
      have hlen : (0 : Int) ≤ (r.text.length : Int) := Int.natCast_nonneg _
      have hc : ¬(f ≤ 0 ∧ ((r.text.length : Int)) ≤ t) := by omega
      simp only [stripRuns, if_neg hc]
      rw [ih _ _ (by omega)]

theorem stripRuns_full (rs : List TextRun) (f t : Int) (hf : f ≤ 0) (ht : runsLen rs ≤ t) :
    stripRuns rs f t = rs.map stripRun := by
  induction rs generalizing f t with
  | nil => simp [stripRuns]
  | cons r rest ih =>
      have hlen : (0 : Int) ≤ (r.text.length : Int) := Int.natCast_nonneg _
      have hrest := runsLen_nonneg rest
      simp only [runsLen] at ht
      have hc : f ≤ 0 ∧ ((r.text.length : Int)) ≤ t := by omega
      simp only [stripRuns, if_pos hc, List.map_cons]
      rw [ih _ _ (by omega) (by omega)]

theorem unsetAllMarksRange_of_neg (doc : Doc) (f t : Int) (ht : t ≤ 0) :
    unsetAllMarksRange doc f t = doc := by
  induction doc generalizing f t with
  | nil => simp [unsetAllMarksRange]
  | cons b bs ih =>
      have h2 := nodeSize_ge_two b
      simp only [unsetAllMarksRange]
      rw [stripRuns_of_neg _ _ _ (by omega), ih _ _ (by omega)]

theorem unsetAllMarksRange_startPos (doc : Doc) (i : Nat) (hi : i < doc.length) :
    unsetAllMarksRange doc (startPos doc i + 1)
        (startPos doc i + (doc.get ⟨i, hi⟩).nodeSize - 1) =
      doc.set i { doc.get ⟨i, hi⟩ with runs := (doc.get ⟨i, hi⟩).runs.map stripRun } := by
  induction doc generalizing i with
  | nil => simp at hi
  | cons b bs ih =>
      cases i with
      | zero =>
          have hb : ((b :: bs).get ⟨0, hi⟩) = b := rfl
          rw [startPos_zero, hb]
          simp only [unsetAllMarksRange, List.set_cons_zero]
          congr 1
          · show { b with runs := stripRuns b.runs (0 + 1 - 1) (0 + b.nodeSize - 1 - 1) } =
              { b with runs := b.runs.map stripRun }
            rw [show (0 : Int) + 1 - 1 = 0 by ring,
              show (0 : Int) + b.nodeSize - 1 - 1 = b.nodeSize - 2 by ring]
            rw [stripRuns_full _ _ _ (by omega) (by simp only [Block.nodeSize]; omega)]
          · exact unsetAllMarksRange_of_neg _ _ _ (by omega)
      | succ i =>
          have hi' : i < bs.length := by simpa using hi
          have h2 := nodeSize_ge_two b
          have h0 := startPos_nonneg bs i
          have hsz := nodeSize_ge_two (bs.get ⟨i, hi'⟩)
          simp only [startPos, unsetAllMarksRange, List.get_cons_succ, List.set_cons_succ]
          congr 1
          · show { b with runs := stripRuns b.runs (b.nodeSize + startPos bs i + 1 - 1) _ } = b
            have hb : runsLen b.runs < b.nodeSize + startPos bs i + 1 - 1 := by
              simp only [Block.nodeSize]; omega
            rw [stripRuns_of_lt _ _ _ hb]
          · have harg1 : b.nodeSize + startPos bs i + 1 - b.nodeSize = startPos bs i + 1 := by ring
            have harg2 : b.nodeSize + startPos bs i + (bs.get ⟨i, hi'⟩).nodeSize - 1 - b.nodeSize =
                startPos bs i + (bs.get ⟨i, hi'⟩).nodeSize - 1 := by ring
            rw [harg1, harg2, ih i hi']

/-! ## Attribute map lemmas -/

theorem attrLookup_ne_none_iff_contains (a : Attrs) (k : String) :
    (attrLookup a k ≠ none) ↔ ((a.map Prod.fst).contains k = true) := by
  induction a with
  | nil => simp [attrLookup]
  | cons p rest ih =>
      obtain ⟨k', v'⟩ := p
      by_cases hk : k' = k
      · subst hk
        simp [attrLookup]
      · have hk2 : ¬(k == k') := by simpa [beq_iff_eq] using fun h => hk h.symm
        simp [attrLookup, if_neg hk, List.contains_cons, hk2, ih]

theorem attrLookup_update_self (a : Attrs) (k : String) (v : AttrValue)
    (h : attrLookup a k ≠ none) :
    attrLookup (updateAttr a k v) k = some v := by
  induction a with
  | nil => simp [attrLookup] at h
  | cons p rest ih =>
      obtain ⟨k', v'⟩ := p
      by_cases hk : k' = k
      · subst hk
        simp [updateAttr, attrLookup]
      · simp only [attrLookup, if_neg hk] at h
        simp only [updateAttr, if_neg hk, attrLookup]
        exact ih h

theorem attrLookup_update_ne (a : Attrs) (k : String) (v : AttrValue) (q : String)
    (hq : q ≠ k) :
    attrLookup (updateAttr a k v) q = attrLookup a q := by
  induction a with
  | nil => rfl
  | cons p rest ih =>
      obtain ⟨k', v'⟩ := p
      by_cases hk : k' = k
      · subst hk
        have hkq : ¬(k' = q) := fun h => hq h.symm
        simp only [updateAttr, if_pos rfl, attrLookup, if_neg hkq, ih]
      · simp only [updateAttr, if_neg hk, attrLookup, ih]

theorem attrLookup_append_of_none (a b : Attrs) (k : String) (h : attrLookup a k = none) :
    attrLookup (a ++ b) k = attrLookup b k := by
  induction a with
  | nil => simp
  | cons p rest ih =>
      obtain ⟨k', v'⟩ := p
      by_cases hk : k' = k
      · simp [attrLookup, hk] at h
      · simp only [attrLookup, if_neg hk] at h
        simp only [List.cons_append, attrLookup, if_neg hk]
        exact ih h

theorem attrLookup_append_of_some (a b : Attrs) (k : String) (v : AttrValue)
    (h : attrLookup a k = some v) :
    attrLookup (a ++ b) k = some v := by
  induction a with
  | nil => simp [attrLookup] at h
  | cons p rest ih =>
      obtain ⟨k', v'⟩ := p
      by_cases hk : k' = k
      · simp only [attrLookup, if_pos hk] at h
        simp only [List.cons_append, attrLookup, if_pos hk]
        exact h
      · simp only [attrLookup, if_neg hk] at h
        simp only [List.cons_append, attrLookup, if_neg hk]
        exact ih h

theorem attrLookup_setAttr_self (a : Attrs) (k : String) (v : AttrValue) :
    attrLookup (setAttr a k v) k = some v := by
  unfold setAttr
  by_cases h : (a.map Prod.fst).contains k
  · rw [if_pos h]
    exact attrLookup_update_self a k v ((attrLookup_ne_none_iff_contains a k).mpr h)
  · rw [if_neg h]
    have hn : attrLookup a k = none := by
      by_contra hc
      exact h ((attrLookup_ne_none_iff_contains a k).mp hc)
    rw [attrLookup_append_of_none _ _ _ hn]
    simp [attrLookup]

theorem attrLookup_setAttr_ne (a : Attrs) (k : String) (v : AttrValue) (q : String)
    (hq : q ≠ k) :
    attrLookup (setAttr a k v) q = attrLookup a q := by
  unfold setAttr
  by_cases h : (a.map Prod.fst).contains k
  · rw [if_pos h]
    exact attrLookup_update_ne a k v q hq
  · rw [if_neg h]
    cases hlk : attrLookup a q with
    | some w => exact attrLookup_append_of_some _ _ _ _ hlk
    | none =>
        rw [attrLookup_append_of_none _ _ _ hlk]
        have hkq : ¬(k = q) := fun hh => hq hh.symm
        simp [attrLookup, hkq]

/-! ## Unfolding the move command -/

theorem moveBlock_of_valid (doc : Doc) (s t : Int) (node : Block)
    (hn : nodeAt doc s = some node)
    (hv : (validateDropPosition (some s) (some t) node.nodeSize
      (docContentSize doc)).isValid = true) :
    moveBlock doc s t =
      ⟨true, insertContentAt (deleteRange doc s (s + node.nodeSize))
        (if s < t then t - node.nodeSize else t) node, []⟩ := by
  simp only [moveBlock, hn]
  rw [if_pos hv]

/-! ## Claims -/

/-- C1 counterexample: the claimed characterization of
`validateDropPosition` fails for the input tuple
`sourcePos = 0, targetPos = 0, nodeSize = -1, docSize = 1`: the claim's
condition (`0 ≤ targetPos ≤ docSize` and not
`sourcePos ≤ targetPos ≤ sourcePos + nodeSize`) holds, yet the validator
rejects, because for a negative `nodeSize` the "adjacent position" branch
(`targetPos = sourcePos`) fires outside the self-drop span. -/
theorem c1_counterexample :
    (validateDropPosition (some 0) (some 0) (-1) 1).isValid = false ∧
      ((0 : Int) ≤ 0 ∧ (0 : Int) ≤ 1 ∧ ¬((0 : Int) ≤ 0 ∧ (0 : Int) ≤ 0 + (-1))) := by
  refine ⟨by decide, by decide⟩

/-- C1 (amended with `0 ≤ nodeSize`): `validateDropPosition` returns
`isValid = false` whenever `sourcePos` or `targetPos` is not a number;
and for numeric positions and any `nodeSize ≥ 0` it returns
`isValid = true` exactly when `0 ≤ targetPos ≤ docSize` and not
`sourcePos ≤ targetPos ≤ sourcePos + nodeSize`. -/
theorem c1_validateDropPosition_characterization :
    (∀ (t : Option Int) (ns ds : Int), (validateDropPosition none t ns ds).isValid = false)
    ∧ (∀ (s : Option Int) (ns ds : Int), (validateDropPosition s none ns ds).isValid = false)
    ∧ (∀ s t ns ds : Int, 0 ≤ ns →
        ((validateDropPosition (some s) (some t) ns ds).isValid = true ↔
          (0 ≤ t ∧ t ≤ ds ∧ ¬(s ≤ t ∧ t ≤ s + ns)))) := by
  refine ⟨?_, ?_, ?_⟩
  · intro t ns ds; cases t <;> rfl
  · intro s ns ds; cases s <;> rfl
  · intro s t ns ds hns; exact validate_isValid_iff s t ns ds hns

/-- C1 witness: the characterization instantiated at
`sourcePos = 10, targetPos = 2, nodeSize = 4, docSize = 20`. -/
theorem c1_witness :
    (validateDropPosition (some 10) (some 2) 4 20).isValid = true ↔
      ((0 : Int) ≤ 2 ∧ (2 : Int) ≤ 20 ∧ ¬((10 : Int) ≤ 2 ∧ (2 : Int) ≤ 10 + 4)) :=
  c1_validateDropPosition_characterization.2.2 10 2 4 20 (by decide)

/-- C2 counterexample: a drop with `targetPos = sourcePos`
(`sourcePos = 0, targetPos = 0, nodeSize = 4, docSize = 10`, and
`moveBlock` on a concrete three-block document) is rejected by the
earlier self-drop branch with reason "Cannot drop block onto itself",
not the claimed no-op reason "already at this position", and `moveBlock`
surfaces that warning instead of failing silently. -/
theorem c2_counterexample :
    (validateDropPosition (some 0) (some 0) 4 10).reason =
        some "Cannot drop block onto itself" ∧
      ¬(validateDropPosition (some 0) (some 0) 4 10).reason =
        some "Block is already at this position" ∧
      (moveBlock exDoc 0 0).warnings = ["Cannot drop block onto itself"] := by
  refine ⟨by decide, by decide, by decide⟩

/-- C2 (amended): a numeric in-bounds drop at `targetPos = sourcePos` or
`targetPos = sourcePos + nodeSize` (with `nodeSize ≥ 0`) is rejected
with reason "Cannot drop block onto itself" — the endpoints lie inside
the closed self-drop span, so the silent "already at this position"
branch never fires — and `moveBlock` at such a target fails and surfaces
that warning to the user. -/
theorem c2_endpoint_drop_rejected :
    (∀ s t ns ds : Int, 0 ≤ ns → 0 ≤ t → t ≤ ds → (t = s ∨ t = s + ns) →
        validateDropPosition (some s) (some t) ns ds =
          ⟨false, some "Cannot drop block onto itself"⟩)
    ∧ (∀ (doc : Doc) (s t : Int) (node : Block), nodeAt doc s = some node →
        0 ≤ t → t ≤ docContentSize doc → (t = s ∨ t = s + node.nodeSize) →
        moveBlock doc s t = ⟨false, doc, ["Cannot drop block onto itself"]⟩) := by
  constructor
  · intro s t ns ds hns h0 hds h
    exact validate_eq_self_drop s t ns ds h0 hds (by rcases h with h | h <;> omega)
  · intro doc s t node hn h0 hds h
    have h2 := nodeSize_ge_two node
    have hv := validate_eq_self_drop s t node.nodeSize (docContentSize doc) h0 hds
      (by rcases h with h | h <;> omega)
    simp only [moveBlock, hn, hv]
    rw [if_neg (by simp), if_neg (by simp)]
    simp [Option.getD]

/-- C2 witness: the amended claim instantiated at
`sourcePos = 0, targetPos = 4` (the source block's end position) on the
concrete three-block document. -/
theorem c2_witness :
    validateDropPosition (some 0) (some 4) 4 12 =
        ⟨false, some "Cannot drop block onto itself"⟩ ∧
      moveBlock exDoc 0 4 = ⟨false, exDoc, ["Cannot drop block onto itself"]⟩ :=
  ⟨c2_endpoint_drop_rejected.1 0 4 4 12 (by decide) (by decide) (by decide)
      (Or.inr (by decide)),
    c2_endpoint_drop_rejected.2 exDoc 0 4 exA (by decide) (by decide) (by decide)
      (Or.inr (by decide))⟩

/-- C4: whenever no node resolves at `sourcePos` or `validateDropPosition`
rejects the pair, `moveBlock` returns `false` and the document after the
call is identical to the document before the call. -/
theorem c4_invalid_move_is_noop (doc : Doc) (s t : Int)
    (h : ∀ node : Block, nodeAt doc s = some node →
      (validateDropPosition (some s) (some t) node.nodeSize
        (docContentSize doc)).isValid = false) :
    (moveBlock doc s t).success = false ∧ (moveBlock doc s t).doc = doc := by
  cases hn : nodeAt doc s with
  | none => simp [moveBlock, hn]
  | some node =>
      have hv := h node hn
      simp only [moveBlock, hn, hv]
      split_ifs <;> simp_all

/-- C4 witness: an invalid self-drop (`sourcePos = targetPos = 0`) on the
concrete three-block document leaves it unchanged. -/
theorem c4_witness :
    (moveBlock exDoc 0 0).success = false ∧ (moveBlock exDoc 0 0).doc = exDoc :=
  c4_invalid_move_is_noop exDoc 0 0 (by
    intro node hn
    have h0 : nodeAt exDoc 0 = some exA := by decide
    rw [h0] at hn
    rw [← Option.some.inj hn]
    decide)

/-- C5: `isConversionValid` returns `valid = false` exactly when the
source type is `listItem` and the target type differs from it; every
other combination (including every pair of distinct non-`listItem`
types, and all same-type pairs) is valid, independent of the attribute
maps. -/
theorem c5_isConversionValid_iff (sourceType targetType : String)
    (targetAttrs sourceAttrs : Attrs) :
    (isConversionValid sourceType targetType targetAttrs sourceAttrs).valid = false ↔
      (sourceType = "listItem" ∧ targetType ≠ sourceType) := by
  unfold isConversionValid
  split_ifs with h1 h2 h3 h4 h5 h6 <;> simp_all
  exact fun h => h1 h.symm

/-- C3: for every pair accepted by the validator, `moveBlock` removes the
span `[sourcePos, sourcePos + nodeSize)` and inserts the removed node at
`targetPos - nodeSize` when `targetPos > sourcePos` and at `targetPos`
unchanged when `targetPos < sourcePos` (first conjunct); consequently,
for block-start positions `startPos i → startPos j` the result is the
block list with block `i` removed and re-inserted at index `j - 1`
(target after source) or `j` (target before source) (second conjunct). -/
theorem c3_moveBlock_adjusted_insert :
    (∀ (doc : Doc) (s t : Int) (node : Block),
        nodeAt doc s = some node →
        (validateDropPosition (some s) (some t) node.nodeSize
          (docContentSize doc)).isValid = true →
        moveBlock doc s t =
          ⟨true, insertContentAt (deleteRange doc s (s + node.nodeSize))
            (if s < t then t - node.nodeSize else t) node, []⟩)
    ∧ (∀ (doc : Doc) (i j : Nat) (hi : i < doc.length),
        j ≤ doc.length → j ≠ i → j ≠ i + 1 →
        moveBlock doc (startPos doc i) (startPos doc j) =
          ⟨true, (doc.eraseIdx i).insertIdx (if i < j then j - 1 else j)
            (doc.get ⟨i, hi⟩), []⟩) := by
  have part1 : ∀ (doc : Doc) (s t : Int) (node : Block),
      nodeAt doc s = some node →
      (validateDropPosition (some s) (some t) node.nodeSize
        (docContentSize doc)).isValid = true →
      moveBlock doc s t =
        ⟨true, insertContentAt (deleteRange doc s (s + node.nodeSize))
          (if s < t then t - node.nodeSize else t) node, []⟩ :=
    fun doc s t node hn hv => moveBlock_of_valid doc s t node hn hv
  refine ⟨part1, ?_⟩
  intro doc i j hi hj hne1 hne2
  have hnode := nodeAt_startPos doc i hi
  have h2 := nodeSize_ge_two (doc.get ⟨i, hi⟩)
  have h0 := startPos_nonneg doc j
  have hds := startPos_le_docSize doc j
  rcases Nat.lt_or_ge j i with hji | hge
  · -- target lies before the source block
    have hjlen : j < doc.length := by omega
    have hts : startPos doc j < startPos doc i := startPos_lt_startPos doc j i hjlen hji
    have hv := validate_eq_valid (startPos doc i) (startPos doc j)
      (doc.get ⟨i, hi⟩).nodeSize (docContentSize doc) (by omega) h0 hds (Or.inl hts)
    rw [part1 doc _ _ _ hnode (by rw [hv])]
    rw [if_neg (by omega)]
    rw [deleteRange_startPos doc i hi]
    have hsp : startPos doc j = startPos (doc.eraseIdx i) j :=
      (startPos_eraseIdx_le doc i j (by omega)).symm
    rw [hsp, insertContentAt_startPos _ j _ (by
      have := List.length_eraseIdx_add_one hi
      omega)]
    rw [if_neg (by omega : ¬ i < j)]
  · -- target lies after the source block (j ≥ i + 2)
    cases j with
    | zero => omega
    | succ k =>
        have hik : i ≤ k := by omega
        have hi1 : i + 1 < doc.length := by omega
        have e1 := startPos_succ doc i hi
        have e2 := startPos_add_size_le doc (i + 1) (k + 1) hi1 (by omega)
        have h3 := nodeSize_ge_two (doc.get ⟨i + 1, hi1⟩)
        have hlt : startPos doc i + (doc.get ⟨i, hi⟩).nodeSize <
            startPos doc (k + 1) := by omega
        have hv := validate_eq_valid (startPos doc i) (startPos doc (k + 1))
          (doc.get ⟨i, hi⟩).nodeSize (docContentSize doc) (by omega) h0 hds (Or.inr hlt)
        rw [part1 doc _ _ _ hnode (by rw [hv])]
        rw [if_pos (by omega)]
        rw [deleteRange_startPos doc i hi]
        have hsp := startPos_eraseIdx_gt doc i k hi hik
        have harg : startPos doc (k + 1) - (doc.get ⟨i, hi⟩).nodeSize =
            startPos (doc.eraseIdx i) k := by omega
        rw [harg, insertContentAt_startPos _ k _ (by
          have := List.length_eraseIdx_add_one hi
          omega)]
        rw [if_pos (by omega : i < k + 1), Nat.add_sub_cancel]

/-- C3 witness: moving the first block of the concrete three-block
document to position 9 (the start of the third block) yields the middle
block first, then the moved block, then the third. -/
theorem c3_witness : moveBlock exDoc 0 9 = ⟨true, [exB, exA, exC], []⟩ := by
  have h := c3_moveBlock_adjusted_insert.2 exDoc 0 2 (by decide) (by decide)
    (by decide) (by decide)
  have e1 : startPos exDoc 0 = 0 := by decide
  have e2 : startPos exDoc 2 = 9 := by decide
  rw [e1, e2] at h
  rw [h]
  decide

/-- C6: with inner content range `from = pos + 1`, `to = pos + nodeSize - 1`,
`resetBlockFormattingAt` succeeds as a no-op when `from ≥ to`; otherwise
it succeeds and replaces only the addressed block by the same block with
every inline mark removed from its runs, leaving the concatenated plain
text, the block attributes and all other blocks unchanged. -/
theorem c6_resetBlockFormatting (doc : Doc) (i : Nat) (hi : i < doc.length) :
    ((startPos doc i) + (doc.get ⟨i, hi⟩).nodeSize - 1 ≤ (startPos doc i) + 1 →
      resetBlockFormattingAt doc (startPos doc i) = ⟨true, doc⟩)
    ∧ ((startPos doc i) + 1 < (startPos doc i) + (doc.get ⟨i, hi⟩).nodeSize - 1 →
      resetBlockFormattingAt doc (startPos doc i) =
          ⟨true, doc.set i { doc.get ⟨i, hi⟩ with
            runs := (doc.get ⟨i, hi⟩).runs.map stripRun }⟩
        ∧ blockText { doc.get ⟨i, hi⟩ with
            runs := (doc.get ⟨i, hi⟩).runs.map stripRun } = blockText (doc.get ⟨i, hi⟩)
        ∧ ({ doc.get ⟨i, hi⟩ with
            runs := (doc.get ⟨i, hi⟩).runs.map stripRun }).attrs = (doc.get ⟨i, hi⟩).attrs
        ∧ ∀ r ∈ (doc.get ⟨i, hi⟩).runs.map stripRun, r.marks = []) := by
  have hnode := nodeAt_startPos doc i hi
  constructor
  · intro h
    simp only [resetBlockFormattingAt, hnode]
    rw [if_pos h]
  · intro h
    refine ⟨?_, ?_, rfl, ?_⟩
    · simp only [resetBlockFormattingAt, hnode]
      rw [if_neg (by omega)]
      rw [unsetAllMarksRange_startPos doc i hi]
    · have htext : TextRun.text ∘ stripRun = TextRun.text := funext fun r => rfl
      simp only [blockText, List.map_map, htext]
    · intro r hr
      rcases List.mem_map.mp hr with ⟨s, _, rfl⟩
      rfl

/-- C6 witness: on an empty paragraph the command is a successful no-op;
on the concrete three-block document the first block's bold mark is
stripped while its text is kept. -/
theorem c6_witness :
    resetBlockFormattingAt exEmptyDoc 0 = ⟨true, exEmptyDoc⟩ ∧
      resetBlockFormattingAt exDoc 0 =
        ⟨true, [⟨"paragraph", [], [⟨"ab", []⟩]⟩, exB, exC]⟩ := by
  constructor
  · exact (c6_resetBlockFormatting exEmptyDoc 0 (by decide)).1 (by decide)
  · have h := ((c6_resetBlockFormatting exDoc 0 (by decide)).2 (by decide)).1
    exact h.trans (by decide)

/-- C7: when a block resolves at `pos`, `duplicateBlockAt` inserts an
identical copy (same type, attrs, content — the block value itself)
immediately after it at position `pos + nodeSize`, increasing the block
count by exactly one; when no node resolves it fails silently returning
`false` with the document unchanged. -/
theorem c7_duplicateBlockAt :
    (∀ (doc : Doc) (pos : Int), nodeAt doc pos = none →
        duplicateBlockAt doc pos = ⟨false, doc⟩)
    ∧ (∀ (doc : Doc) (i : Nat) (hi : i < doc.length),
        duplicateBlockAt doc (startPos doc i) =
          ⟨true, doc.insertIdx (i + 1) (doc.get ⟨i, hi⟩)⟩
        ∧ (duplicateBlockAt doc (startPos doc i)).doc.length = doc.length + 1) := by
  constructor
  · intro doc pos h
    simp [duplicateBlockAt, h]
  · intro doc i hi
    have hnode := nodeAt_startPos doc i hi
    have hmain : duplicateBlockAt doc (startPos doc i) =
        ⟨true, doc.insertIdx (i + 1) (doc.get ⟨i, hi⟩)⟩ := by
      simp only [duplicateBlockAt, hnode]
      rw [← startPos_succ doc i hi]
      rw [insertContentAt_startPos doc (i + 1) _ (by omega)]
    refine ⟨hmain, ?_⟩
    rw [hmain]
    exact List.length_insertIdx (i + 1) doc (by omega)

/-- C7 witness: duplicating the middle block of the concrete document
(and the silent failure at the inner position 1, where no block starts). -/
theorem c7_witness :
    duplicateBlockAt exDoc 1 = ⟨false, exDoc⟩ ∧
      duplicateBlockAt exDoc 4 = ⟨true, [exA, exB, exB, exC]⟩ ∧
      (duplicateBlockAt exDoc 4).doc.length = exDoc.length + 1 := by
  have h := c7_duplicateBlockAt.2 exDoc 1 (by decide)
  have e : startPos exDoc 1 = 4 := by decide
  rw [e] at h
  exact ⟨c7_duplicateBlockAt.1 exDoc 1 (by decide), h.1.trans (by decide), h.2⟩

/-- The effect of `setBlockColorAt` at a block start position: the block's
attribute map is rewritten with `backgroundColor` set (the JS spread). -/
theorem setBlockColorAt_startPos_eq (doc : Doc) (i : Nat) (hi : i < doc.length) (c : String) :
    setBlockColorAt doc (startPos doc i) c =
      ⟨true, doc.set i (recolorBlock (doc.get ⟨i, hi⟩) c)⟩ := by
  have hnode := nodeAt_startPos doc i hi
  simp only [setBlockColorAt, hnode, recolorBlock]
  rw [setNodeMarkup_startPos doc i hi]

/-- C8: `setBlockColorAt` stores `null` in the block's `backgroundColor`
attribute when the color is the sentinel `"transparent"` and exactly the
given string otherwise, and returns `false` when no node resolves at
`pos`. -/
theorem c8_setBlockColorAt :
    (∀ (doc : Doc) (pos : Int) (c : String), nodeAt doc pos = none →
        setBlockColorAt doc pos c = ⟨false, doc⟩)
    ∧ (∀ c : String, colorValueOf c =
        if c = "transparent" then AttrValue.null else AttrValue.str c)
    ∧ (∀ (doc : Doc) (i : Nat) (hi : i < doc.length) (c : String),
        setBlockColorAt doc (startPos doc i) c =
          ⟨true, doc.set i (recolorBlock (doc.get ⟨i, hi⟩) c)⟩
        ∧ attrLookup (recolorBlock (doc.get ⟨i, hi⟩) c).attrs "backgroundColor" =
          some (colorValueOf c)) := by
  refine ⟨?_, fun c => rfl, ?_⟩
  · intro doc pos c h
    simp [setBlockColorAt, h]
  · intro doc i hi c
    refine ⟨setBlockColorAt_startPos_eq doc i hi c, ?_⟩
    simp only [recolorBlock]
    exact attrLookup_setAttr_self _ _ _

/-- C8 witness: recoloring the middle block of the concrete document
stores the given string, "transparent" stores `null`, and a non-block
position fails. -/
theorem c8_witness :
    setBlockColorAt exDoc 1 "red" = ⟨false, exDoc⟩ ∧
      attrLookup (recolorBlock exB "red").attrs "backgroundColor" =
        some (AttrValue.str "red") ∧
      attrLookup (recolorBlock exB "transparent").attrs "backgroundColor" =
        some AttrValue.null := by
  have h1 := c8_setBlockColorAt.1 exDoc 1 "red" (by decide)
  have h2 := (c8_setBlockColorAt.2.2 exDoc 1 (by decide : 1 < exDoc.length) "red").2
  have h3 := (c8_setBlockColorAt.2.2 exDoc 1
    (by decide : 1 < exDoc.length) "transparent").2
  refine ⟨h1, ?_, ?_⟩
  · exact (by decide : attrLookup (recolorBlock exB "red").attrs "backgroundColor" =
      attrLookup (recolorBlock (exDoc.get ⟨1, by decide⟩) "red").attrs
        "backgroundColor").trans (h2.trans (by decide))
  · exact (by decide : attrLookup (recolorBlock exB "transparent").attrs
      "backgroundColor" =
      attrLookup (recolorBlock (exDoc.get ⟨1, by decide⟩) "transparent").attrs
        "backgroundColor").trans (h3.trans (by decide))

/-- C9: at a block start position, `deleteBlockAt` removes exactly that
block; the computed cursor target is `pos - 1` (the end of the preceding
block) when content precedes, `pos` (the start of the following block)
when content only follows, and no cursor placement when the document
becomes empty; the block count drops by exactly one. -/
theorem c9_deleteBlockAt (doc : Doc) (i : Nat) (hi : i < doc.length) :
    deleteBlockAt doc (startPos doc i) =
      ⟨true, doc.eraseIdx i,
        if 0 < i then some (startPos doc i - 1)
        else if i + 1 < doc.length then some (startPos doc i)
        else none⟩
    ∧ (doc.eraseIdx i).length = doc.length - 1 := by
  have hnode := nodeAt_startPos doc i hi
  have hlen := List.length_eraseIdx_add_one hi
  constructor
  · have hcur : (if 0 < startPos doc i then some (startPos doc i - 1)
        else if startPos doc i + (doc.get ⟨i, hi⟩).nodeSize < docContentSize doc then
          some (startPos doc i) else none) =
        (if 0 < i then some (startPos doc i - 1)
        else if i + 1 < doc.length then some (startPos doc i) else none) := by
      by_cases hI : 0 < i
      · rw [if_pos hI, if_pos (startPos_pos doc i hI (by omega))]
      · have hI0 : i = 0 := by omega
        subst hI0
        have hsz : startPos doc 0 + (doc.get ⟨0, hi⟩).nodeSize = startPos doc 1 :=
          (startPos_succ doc 0 hi).symm
        have hz : startPos doc 0 = 0 := startPos_zero doc
        rw [hz] at hsz
        rw [hz, if_neg (lt_irrefl 0), if_neg (lt_irrefl 0), hsz]
        by_cases hI1 : 0 + 1 < doc.length
        · rw [if_pos (startPos_lt_docSize doc 1 (by omega)), if_pos hI1]
        · have hl : doc.length = 1 := by omega
          have ht : startPos doc 1 = docContentSize doc := by
            rw [← hl, startPos_length]
          rw [ht, if_neg (lt_irrefl (docContentSize doc)), if_neg hI1]
    simp only [deleteBlockAt, hnode]
    rw [deleteRange_startPos doc i hi, hcur]
  · omega

/-- C9 witness: deleting the middle block of the concrete document places
the cursor at position 3 (the end of the first block) and drops the
count to two. -/
theorem c9_witness :
    deleteBlockAt exDoc 4 = ⟨true, [exA, exC], some 3⟩ ∧
      (exDoc.eraseIdx 1).length = exDoc.length - 1 := by
  have h := c9_deleteBlockAt exDoc 1 (by decide)
  have e : startPos exDoc 1 = 4 := by decide
  rw [e] at h
  exact ⟨h.1.trans (by decide), h.2⟩

/-- C10: `setBlockColorAt` at a block start position only touches that
block's `backgroundColor` attribute: the document keeps its length,
every other index holds the same block, and the addressed block keeps
its type, its content runs and the value of every other attribute key. -/
theorem c10_setBlockColor_frame (doc : Doc) (i : Nat) (hi : i < doc.length) (c : String) :
    ((setBlockColorAt doc (startPos doc i) c).doc.length = doc.length)
    ∧ (∀ j : Nat, j ≠ i →
        ((setBlockColorAt doc (startPos doc i) c).doc)[j]? = doc[j]?)
    ∧ (∃ b' : Block, ((setBlockColorAt doc (startPos doc i) c).doc)[i]? = some b'
        ∧ b'.typeName = (doc.get ⟨i, hi⟩).typeName
        ∧ b'.runs = (doc.get ⟨i, hi⟩).runs
        ∧ ∀ k : String, k ≠ "backgroundColor" →
            attrLookup b'.attrs k = attrLookup (doc.get ⟨i, hi⟩).attrs k) := by
  have hmain := setBlockColorAt_startPos_eq doc i hi c
  rw [hmain]
  refine ⟨by simp, ?_, ?_⟩
  · intro j hj
    exact List.getElem?_set_ne (fun h => hj h.symm)
  · refine ⟨_, List.getElem?_set_eq_of_lt _ hi, rfl, rfl, ?_⟩
    intro k hk
    simp only [recolorBlock]
    exact attrLookup_setAttr_ne _ _ _ _ hk

/-- C10 witness: recoloring the middle block of the concrete document
keeps the length and the first block. -/
theorem c10_witness :
    (setBlockColorAt exDoc (startPos exDoc 1) "red").doc.length = exDoc.length ∧
      ((setBlockColorAt exDoc (startPos exDoc 1) "red").doc)[0]? = exDoc[0]? := by
  have h := c10_setBlockColor_frame exDoc 1 (by decide) "red"
  exact ⟨h.1, h.2.1 0 (by decide)⟩
